import Mathlib

/-!
Verification development for the `lfu` crate (`src/lib.rs`), a Least
Frequently Used cache with LRU tie-breaking.

The Rust data structures are shallowly embedded as follows:
* `HashMap<K, ValueCounter<V>>` and `HashMap<usize, LinkedHashSet<K>>` become
  association lists (`List (K × β)`); lookup finds the first matching key and
  insertion replaces in place, so over states with no duplicate keys they
  coincide with the hash-map semantics.
* `LinkedHashSet<K>` becomes a `List K` in insertion order: the front of the
  list is the oldest element (`pop_front`/`front` act on the head), and
  `insert` appends at the back (after removing any stale occurrence, matching
  the refreshing semantics of `linked_hash_set::LinkedHashSet::insert`).
* Rust panics (`panic!`, `Option::unwrap`) become `Except.error ()`;
  every operation that can panic returns an `Except Unit` result.
-/

set_option autoImplicit false

universe u v

/-- Embeds `struct ValueCounter<V> { value: V, count: usize }`. -/
structure ValueCounter (V : Type v) where
  value : V
  count : Nat
  deriving DecidableEq, Repr

/-- Embeds `struct LFUCache<K, V>` with fields `values`, `frequency_bin`,
`capacity`, `min_frequency`. -/
structure LFUCache (K : Type u) (V : Type v) where
  values : List (K × ValueCounter V)
  frequency_bin : List (Nat × List K)
  capacity : Nat
  min_frequency : Nat
  deriving DecidableEq, Repr

section Maps

variable {K : Type u} {β : Type v} [DecidableEq K]

/-- `HashMap::get`: first binding of the key in the association list. -/
def findVal : List (K × β) → K → Option β
  | [], _ => none
  | (k', b) :: rest, k => if k = k' then some b else findVal rest k

/-- `HashMap::insert`: replace the binding in place, or append a new one. -/
def setVal : List (K × β) → K → β → List (K × β)
  | [], k, b => [(k, b)]
  | (k', b') :: rest, k, b =>
      if k = k' then (k, b) :: rest else (k', b') :: setVal rest k b

/-- `HashMap::remove`: drop the first binding of the key. -/
def eraseVal : List (K × β) → K → List (K × β)
  | [], _ => []
  | (k', b') :: rest, k => if k = k' then rest else (k', b') :: eraseVal rest k

/-- The keys of an association list. -/
def mapKeys (l : List (K × β)) : List K := l.map Prod.fst

end Maps

section Sets

variable {K : Type u} [DecidableEq K]

/-- `LinkedHashSet::remove`: drop the element from the ordered set. -/
def lhsRemove : List K → K → List K
  | [], _ => []
  | x :: xs, k => if x = k then lhsRemove xs k else x :: lhsRemove xs k

/-- `LinkedHashSet::insert`: append at the back (refreshing any stale copy). -/
def lhsInsert (l : List K) (k : K) : List K := lhsRemove l k ++ [k]

end Sets

section Cache

variable {K : Type u} {V : Type v} [DecidableEq K]

/-- The bucket stored for frequency `f`, defaulting to the empty set: this is
what `frequency_bin.entry(f).or_default()` operates on. -/
def getBin (fb : List (Nat × List K)) (f : Nat) : List K := (findVal fb f).getD []

/-- Store bucket `bin` at frequency `f`. -/
def setBin (fb : List (Nat × List K)) (f : Nat) (bin : List K) :
    List (Nat × List K) := setVal fb f bin

/-- Embeds `LFUCache::with_capacity`; the `capacity == 0` panic becomes
`Except.error`. -/
def withCapacity (K : Type u) (V : Type v) (capacity : Nat) :
    Except Unit (LFUCache K V) :=
  if capacity = 0 then Except.error ()
  else Except.ok { values := [], frequency_bin := [], capacity := capacity,
                   min_frequency := 0 }

/-- Embeds `LFUCache::contains`. -/
def LFUCache.contains (c : LFUCache K V) (key : K) : Bool :=
  (findVal c.values key).isSome

/-- Embeds `LFUCache::len`. -/
def LFUCache.len (c : LFUCache K V) : Nat := c.values.length

/-- Embeds `LFUCache::is_empty`. -/
def LFUCache.isEmpty (c : LFUCache K V) : Bool := c.values.isEmpty

/-- Embeds `LFUCache::remove`: on a hit, the key is removed from its frequency
bucket (via `entry(count).or_default()`) and from `values`; on a miss the cache
is untouched and `None` is returned. -/
def LFUCache.remove (c : LFUCache K V) (key : K) : Option V × LFUCache K V :=
  match findVal c.values key with
  | some value_counter =>
      let count := value_counter.count
      let fb := setBin c.frequency_bin count
        (lhsRemove (getBin c.frequency_bin count) key)
      (some value_counter.value,
        { c with values := eraseVal c.values key, frequency_bin := fb })
  | none => (none, c)

/-- Embeds `LFUCache::update_frequency_bin`: on a hit the key moves from
bucket `count` to bucket `count + 1`, its counter is incremented, and
`min_frequency` advances when the minimum bucket was vacated.  The
`frequency_bin.get_mut(&count).unwrap()` panic becomes `Except.error`. -/
def LFUCache.updateFrequencyBin (c : LFUCache K V) (key : K) :
    Except Unit (LFUCache K V) :=
  match findVal c.values key with
  | some value_counter =>
      match findVal c.frequency_bin value_counter.count with
      | none => Except.error ()
      | some bin =>
          let bin' := lhsRemove bin key
          let count := value_counter.count
          let values' := setVal c.values key
            { value := value_counter.value, count := count + 1 }
          let minf := if count = c.min_frequency ∧ bin' = []
            then c.min_frequency + 1 else c.min_frequency
          let fb1 := setBin c.frequency_bin count bin'
          let fb2 := setBin fb1 (count + 1)
            (lhsInsert (getBin fb1 (count + 1)) key)
          Except.ok { values := values', frequency_bin := fb2,
                      capacity := c.capacity, min_frequency := minf }
  | none => Except.ok c

/-- Embeds `LFUCache::get`: bump the frequency, then read the value. -/
def LFUCache.get (c : LFUCache K V) (key : K) :
    Except Unit (Option V × LFUCache K V) :=
  (c.updateFrequencyBin key).map fun c' =>
    ((findVal c'.values key).map (fun x => x.value), c')

/-- Embeds `LFUCache::get_mut`: same frequency bump as `get`; the observable
result (returned value and successor state) coincides with `get`. -/
def LFUCache.getMut (c : LFUCache K V) (key : K) :
    Except Unit (Option V × LFUCache K V) :=
  (c.updateFrequencyBin key).map fun c' =>
    ((findVal c'.values key).map (fun x => x.value), c')

/-- Embeds `LFUCache::evict`: pop the front of the bucket at `min_frequency`
and remove that key from `values`.  Both `unwrap`s become `Except.error`. -/
def LFUCache.evict (c : LFUCache K V) : Except Unit (LFUCache K V) :=
  match findVal c.frequency_bin c.min_frequency with
  | none => Except.error ()
  | some bin =>
      match bin with
      | [] => Except.error ()
      | least_recently_used :: rest =>
          Except.ok { c with
            frequency_bin := setBin c.frequency_bin c.min_frequency rest,
            values := eraseVal c.values least_recently_used }

/-- Embeds `LFUCache::peek_lfu_key`: the front of the bucket at
`min_frequency`, without mutation.  The `.unwrap()` on a missing bucket
becomes `Except.error`. -/
def LFUCache.peekLfuKey (c : LFUCache K V) : Except Unit (Option K) :=
  match findVal c.frequency_bin c.min_frequency with
  | none => Except.error ()
  | some bin => Except.ok bin.head?

/-- Embeds `LFUCache::set`: update-in-place plus frequency bump on a hit;
otherwise evict when at capacity, then insert with count 1 and reset
`min_frequency` to 1. -/
def LFUCache.set (c : LFUCache K V) (key : K) (value : V) :
    Except Unit (LFUCache K V) :=
  match findVal c.values key with
  | some value_counter =>
      let c1 := { c with
        values := setVal c.values key
          { value := value, count := value_counter.count } }
      c1.updateFrequencyBin key
  | none =>
      (if c.len ≥ c.capacity then c.evict else Except.ok c).map fun c2 =>
        { values := setVal c2.values key { value := value, count := 1 },
          frequency_bin := setBin c2.frequency_bin 1
            (lhsInsert (getBin c2.frequency_bin 1) key),
          capacity := c2.capacity,
          min_frequency := 1 }

/-- Embeds `Index::index` (`cache[key]`): a direct `values.get` on `&self`
(no frequency bump is possible through a shared reference); the `.unwrap()`
on a missing key becomes `Except.error`. -/
def LFUCache.index (c : LFUCache K V) (key : K) : Except Unit V :=
  match findVal c.values key with
  | some value_counter => Except.ok value_counter.value
  | none => Except.error ()

end Cache

/-! ### Concrete cache states reached in the test scenarios (capacity 2) -/

/-- Freshly constructed capacity-2 cache. -/
def lfu0 : LFUCache Nat Nat := ⟨[], [], 2, 0⟩

/-- State of `lfu0` after `set(1,1)`. -/
def lfu1 : LFUCache Nat Nat := ⟨[(1, ⟨1, 1⟩)], [(1, [1])], 2, 1⟩

/-- State of `lfu1` after `get(1)`. -/
def lfu1g : LFUCache Nat Nat := ⟨[(1, ⟨1, 2⟩)], [(1, []), (2, [1])], 2, 2⟩

/-- State of `lfu1` after `remove(1)`: the bucket at `min_frequency = 1` is
left empty. -/
def lfuRm : LFUCache Nat Nat := ⟨[], [(1, [])], 2, 1⟩

/-- State of `lfu1` after `set(2,2)`. -/
def lfu12 : LFUCache Nat Nat :=
  ⟨[(1, ⟨1, 1⟩), (2, ⟨2, 1⟩)], [(1, [1, 2])], 2, 1⟩

/-- State of `lfu12` after `get(1)`. -/
def lfu12g : LFUCache Nat Nat :=
  ⟨[(1, ⟨1, 2⟩), (2, ⟨2, 1⟩)], [(1, [2]), (2, [1])], 2, 1⟩

/-- State of `lfu0` after `set(2,2)`. -/
def lfu2 : LFUCache Nat Nat := ⟨[(2, ⟨2, 1⟩)], [(1, [2])], 2, 1⟩

/-- State of `lfu12` after `set(3,3)` (key 1 evicted); equally the state of
`lfu2` after `set(3,3)`. -/
def lfu23 : LFUCache Nat Nat :=
  ⟨[(2, ⟨2, 1⟩), (3, ⟨3, 1⟩)], [(1, [2, 3])], 2, 1⟩

/-- State of `lfu23` after `set(3,30)`. -/
def lfu23u : LFUCache Nat Nat :=
  ⟨[(2, ⟨2, 1⟩), (3, ⟨30, 2⟩)], [(1, [2]), (2, [3])], 2, 1⟩

/-- State of `lfu23u` after `set(4,4)` (key 2 evicted). -/
def lfu34 : LFUCache Nat Nat :=
  ⟨[(3, ⟨30, 2⟩), (4, ⟨4, 1⟩)], [(1, [4]), (2, [3])], 2, 1⟩

/-- State of `lfu34` after `get(3)`. -/
def lfu34g : LFUCache Nat Nat :=
  ⟨[(3, ⟨30, 3⟩), (4, ⟨4, 1⟩)], [(1, [4]), (2, []), (3, [3])], 2, 1⟩

/-! ### Lemmas about the association-list map model -/

section MapLemmas

variable {K : Type u} {β : Type v} [DecidableEq K]

theorem mapKeys_nil : mapKeys ([] : List (K × β)) = [] := rfl

theorem mapKeys_cons (k : K) (b : β) (rest : List (K × β)) :
    mapKeys ((k, b) :: rest) = k :: mapKeys rest := rfl

theorem findVal_setVal_self (l : List (K × β)) (k : K) (b : β) :
    findVal (setVal l k b) k = some b := by
  induction l with
  | nil => simp [setVal, findVal]
  | cons p rest ih =>
      obtain ⟨k', b'⟩ := p
      by_cases h : k = k' <;> simp [setVal, findVal, h, ih]

theorem findVal_setVal_ne (l : List (K × β)) {k k' : K} (b : β) (h : k ≠ k') :
    findVal (setVal l k' b) k = findVal l k := by
  induction l with
  | nil => simp [setVal, findVal, h]
  | cons p rest ih =>
      obtain ⟨k'', b''⟩ := p
      by_cases h2 : k' = k''
      · subst h2; simp [setVal, findVal, h]
      · by_cases h3 : k = k'' <;> simp [setVal, findVal, h2, h3, ih]

theorem findVal_eraseVal_ne (l : List (K × β)) {k k' : K} (h : k ≠ k') :
    findVal (eraseVal l k') k = findVal l k := by
  induction l with
  | nil => simp [eraseVal]
  | cons p rest ih =>
      obtain ⟨k'', b''⟩ := p
      by_cases h2 : k' = k''
      · subst h2; simp [eraseVal, findVal, h]
      · by_cases h3 : k = k'' <;> simp [eraseVal, findVal, h2, h3, ih]

theorem findVal_eq_none_iff (l : List (K × β)) (k : K) :
    findVal l k = none ↔ k ∉ mapKeys l := by
  induction l with
  | nil => simp [findVal, mapKeys_nil]
  | cons p rest ih =>
      obtain ⟨k', b'⟩ := p
      rw [mapKeys_cons]
      by_cases h : k = k' <;> simp [findVal, h, ih]

theorem mem_mapKeys_of_findVal {l : List (K × β)} {k : K} {b : β}
    (h : findVal l k = some b) : k ∈ mapKeys l := by
  by_contra hk
  rw [← findVal_eq_none_iff] at hk
  rw [h] at hk
  cases hk

theorem findVal_isSome_of_mem {l : List (K × β)} {k : K}
    (h : k ∈ mapKeys l) : (findVal l k).isSome := by
  cases hf : findVal l k with
  | none => exact absurd h ((findVal_eq_none_iff l k).mp hf)
  | some b => rfl

theorem mapKeys_setVal_of_mem {l : List (K × β)} {k : K} (b : β)
    (h : k ∈ mapKeys l) : mapKeys (setVal l k b) = mapKeys l := by
  induction l with
  | nil => simp [mapKeys_nil] at h
  | cons p rest ih =>
      obtain ⟨k', b'⟩ := p
      rw [mapKeys_cons] at h
      by_cases h2 : k = k'
      · simp [setVal, h2, mapKeys_cons]
      · simp [h2] at h
        simp [setVal, h2, mapKeys_cons, ih h]

theorem mapKeys_setVal_of_not_mem {l : List (K × β)} {k : K} (b : β)
    (h : k ∉ mapKeys l) : mapKeys (setVal l k b) = mapKeys l ++ [k] := by
  induction l with
  | nil => simp [setVal, mapKeys_nil, mapKeys_cons]
  | cons p rest ih =>
      obtain ⟨k', b'⟩ := p
      rw [mapKeys_cons] at h
      simp at h
      push_neg at h
      simp [setVal, h.1, mapKeys_cons, ih h.2]

theorem nodup_mapKeys_setVal {l : List (K × β)} {k : K} (b : β)
    (h : (mapKeys l).Nodup) : (mapKeys (setVal l k b)).Nodup := by
  by_cases hm : k ∈ mapKeys l
  · rw [mapKeys_setVal_of_mem b hm]; exact h
  · rw [mapKeys_setVal_of_not_mem b hm]
    simp [List.nodup_append, h, hm]

theorem mem_mapKeys_eraseVal {l : List (K × β)} {k a : K}
    (h : a ∈ mapKeys (eraseVal l k)) : a ∈ mapKeys l := by
  induction l with
  | nil => simpa [eraseVal] using h
  | cons p rest ih =>
      obtain ⟨k', b'⟩ := p
      rw [mapKeys_cons]
      by_cases h2 : k = k'
      · simp [eraseVal, h2] at h
        simp [h]
      · rw [show eraseVal ((k', b') :: rest) k = (k', b') :: eraseVal rest k by
              simp [eraseVal, h2]] at h
        rw [mapKeys_cons] at h
        rcases List.mem_cons.mp h with h3 | h3
        · simp [h3]
        · simp [ih h3]

theorem nodup_mapKeys_eraseVal {l : List (K × β)} (k : K)
    (h : (mapKeys l).Nodup) : (mapKeys (eraseVal l k)).Nodup := by
  induction l with
  | nil => simp [eraseVal, mapKeys_nil]
  | cons p rest ih =>
      obtain ⟨k', b'⟩ := p
      rw [mapKeys_cons] at h
      simp at h
      by_cases h2 : k = k'
      · simpa [eraseVal, h2] using h.2
      · rw [show eraseVal ((k', b') :: rest) k = (k', b') :: eraseVal rest k by
              simp [eraseVal, h2]]
        rw [mapKeys_cons]
        exact List.Nodup.cons (fun hm => h.1 (mem_mapKeys_eraseVal hm)) (ih h.2)

theorem findVal_eraseVal_self {l : List (K × β)} {k : K}
    (h : (mapKeys l).Nodup) : findVal (eraseVal l k) k = none := by
  induction l with
  | nil => simp [eraseVal, findVal]
  | cons p rest ih =>
      obtain ⟨k', b'⟩ := p
      rw [mapKeys_cons] at h
      simp at h
      by_cases h2 : k = k'
      · subst h2
        simp [eraseVal, findVal_eq_none_iff]
        exact h.1
      · rw [show eraseVal ((k', b') :: rest) k = (k', b') :: eraseVal rest k by
              simp [eraseVal, h2]]
        simp [findVal, h2]
        exact ih h.2

theorem length_setVal_of_mem {l : List (K × β)} {k : K} (b : β)
    (h : k ∈ mapKeys l) : (setVal l k b).length = l.length := by
  have h1 : (mapKeys (setVal l k b)).length = (mapKeys l).length := by
    rw [mapKeys_setVal_of_mem b h]
  simpa [mapKeys] using h1

theorem length_setVal_of_not_mem {l : List (K × β)} {k : K} (b : β)
    (h : k ∉ mapKeys l) : (setVal l k b).length = l.length + 1 := by
  have h1 : (mapKeys (setVal l k b)).length = (mapKeys l ++ [k]).length := by
    rw [mapKeys_setVal_of_not_mem b h]
  simpa [mapKeys] using h1

theorem length_eraseVal_of_mem {l : List (K × β)} {k : K}
    (h : k ∈ mapKeys l) : (eraseVal l k).length + 1 = l.length := by
  induction l with
  | nil => simp [mapKeys_nil] at h
  | cons p rest ih =>
      obtain ⟨k', b'⟩ := p
      rw [mapKeys_cons] at h
      by_cases h2 : k = k'
      · simp [eraseVal, h2]
      · simp [h2] at h
        simp [eraseVal, h2]
        exact ih h

end MapLemmas

/-! ### Lemmas about the ordered-set (LinkedHashSet) model -/

section SetLemmas

variable {K : Type u} [DecidableEq K]

theorem mem_lhsRemove {l : List K} {k a : K} :
    a ∈ lhsRemove l k ↔ a ∈ l ∧ a ≠ k := by
  induction l with
  | nil => simp [lhsRemove]
  | cons x xs ih =>
      by_cases h : x = k
      · subst h
        simp [lhsRemove, ih]
        tauto
      · simp [lhsRemove, h, ih]
        constructor
        · rintro (rfl | hh)
          · exact ⟨Or.inl rfl, h⟩
          · exact ⟨Or.inr hh.1, hh.2⟩
        · rintro ⟨rfl | hh, hne⟩
          · exact Or.inl rfl
          · exact Or.inr ⟨hh, hne⟩

theorem nodup_lhsRemove {l : List K} (k : K) (h : l.Nodup) :
    (lhsRemove l k).Nodup := by
  induction l with
  | nil => simp [lhsRemove]
  | cons x xs ih =>
      simp at h
      by_cases h2 : x = k
      · simp [lhsRemove, h2]
        exact ih h.2
      · simp [lhsRemove, h2]
        exact ⟨fun hm => h.1 (mem_lhsRemove.mp hm).1, ih h.2⟩

theorem mem_lhsInsert {l : List K} {k a : K} :
    a ∈ lhsInsert l k ↔ a = k ∨ (a ∈ l ∧ a ≠ k) := by
  simp [lhsInsert, mem_lhsRemove]
  tauto

theorem nodup_lhsInsert {l : List K} (k : K) (h : l.Nodup) :
    (lhsInsert l k).Nodup := by
  simp [lhsInsert, List.nodup_append, nodup_lhsRemove k h]
  intro hm
  exact ((mem_lhsRemove.mp hm).2 rfl).elim

theorem self_mem_lhsInsert (l : List K) (k : K) : k ∈ lhsInsert l k := by
  simp [lhsInsert]

theorem lhsInsert_ne_nil (l : List K) (k : K) : lhsInsert l k ≠ [] := by
  simp [lhsInsert]

end SetLemmas

/-! ### Lemmas about frequency buckets -/

section BinLemmas

variable {K : Type u}

theorem getBin_setBin_self (fb : List (Nat × List K)) (f : Nat) (bin : List K) :
    getBin (setBin fb f bin) f = bin := by
  simp [getBin, setBin, findVal_setVal_self]

theorem getBin_setBin_ne (fb : List (Nat × List K)) {f f' : Nat} (bin : List K)
    (h : f ≠ f') : getBin (setBin fb f' bin) f = getBin fb f := by
  simp [getBin, setBin, findVal_setVal_ne _ _ h]

theorem findVal_setBin_self (fb : List (Nat × List K)) (f : Nat) (bin : List K) :
    findVal (setBin fb f bin) f = some bin := findVal_setVal_self fb f bin

theorem getBin_eq_of_findVal {fb : List (Nat × List K)} {f : Nat} {bin : List K}
    (h : findVal fb f = some bin) : getBin fb f = bin := by
  simp [getBin, h]

theorem findVal_eq_some_of_getBin_ne_nil {fb : List (Nat × List K)} {f : Nat}
    (h : getBin fb f ≠ []) : findVal fb f = some (getBin fb f) := by
  cases hf : findVal fb f with
  | none => simp [getBin, hf] at h
  | some bin => simp [getBin, hf]

end BinLemmas

/-! ### Computation rules for the cache operations -/

section ComputationRules

variable {K : Type u} {V : Type v} [DecidableEq K]

theorem updateFrequencyBin_of_absent {c : LFUCache K V} {key : K}
    (hfind : findVal c.values key = none) :
    c.updateFrequencyBin key = Except.ok c := by
  simp [LFUCache.updateFrequencyBin, hfind]

theorem updateFrequencyBin_of_no_bin {c : LFUCache K V} {key : K}
    {vc : ValueCounter V} (hfind : findVal c.values key = some vc)
    (hbin : findVal c.frequency_bin vc.count = none) :
    c.updateFrequencyBin key = Except.error () := by
  simp [LFUCache.updateFrequencyBin, hfind, hbin]

theorem updateFrequencyBin_of_present {c : LFUCache K V} {key : K}
    {vc : ValueCounter V} {bin : List K}
    (hfind : findVal c.values key = some vc)
    (hbin : findVal c.frequency_bin vc.count = some bin) :
    c.updateFrequencyBin key = Except.ok
      { values := setVal c.values key
          { value := vc.value, count := vc.count + 1 },
        frequency_bin := setBin (setBin c.frequency_bin vc.count
            (lhsRemove bin key)) (vc.count + 1)
          (lhsInsert (getBin (setBin c.frequency_bin vc.count
            (lhsRemove bin key)) (vc.count + 1)) key),
        capacity := c.capacity,
        min_frequency := if vc.count = c.min_frequency ∧ lhsRemove bin key = []
          then c.min_frequency + 1 else c.min_frequency } := by
  simp [LFUCache.updateFrequencyBin, hfind, hbin]

theorem get_eq_updateFrequencyBin (c : LFUCache K V) (key : K) :
    c.get key = (c.updateFrequencyBin key).map fun c' =>
      ((findVal c'.values key).map (fun x => x.value), c') := rfl

theorem getMut_eq_get (c : LFUCache K V) (key : K) : c.getMut key = c.get key := rfl

theorem remove_of_absent {c : LFUCache K V} {key : K}
    (hfind : findVal c.values key = none) : c.remove key = (none, c) := by
  simp [LFUCache.remove, hfind]

theorem remove_of_present {c : LFUCache K V} {key : K} {vc : ValueCounter V}
    (hfind : findVal c.values key = some vc) :
    c.remove key = (some vc.value,
      { c with values := eraseVal c.values key,
               frequency_bin := setBin c.frequency_bin vc.count
                 (lhsRemove (getBin c.frequency_bin vc.count) key) }) := by
  simp [LFUCache.remove, hfind]

theorem evict_of_no_bin {c : LFUCache K V}
    (hbin : findVal c.frequency_bin c.min_frequency = none) :
    c.evict = Except.error () := by
  simp [LFUCache.evict, hbin]

theorem evict_of_empty_bin {c : LFUCache K V}
    (hbin : findVal c.frequency_bin c.min_frequency = some []) :
    c.evict = Except.error () := by
  simp [LFUCache.evict, hbin]

theorem evict_of_cons {c : LFUCache K V} {j : K} {rest : List K}
    (hbin : findVal c.frequency_bin c.min_frequency = some (j :: rest)) :
    c.evict = Except.ok { c with
      frequency_bin := setBin c.frequency_bin c.min_frequency rest,
      values := eraseVal c.values j } := by
  simp [LFUCache.evict, hbin]

theorem peekLfuKey_of_no_bin {c : LFUCache K V}
    (hbin : findVal c.frequency_bin c.min_frequency = none) :
    c.peekLfuKey = Except.error () := by
  simp [LFUCache.peekLfuKey, hbin]

theorem peekLfuKey_of_bin {c : LFUCache K V} {bin : List K}
    (hbin : findVal c.frequency_bin c.min_frequency = some bin) :
    c.peekLfuKey = Except.ok bin.head? := by
  simp [LFUCache.peekLfuKey, hbin]

theorem set_of_present {c : LFUCache K V} {key : K} {vc : ValueCounter V}
    (value : V) (hfind : findVal c.values key = some vc) :
    c.set key value =
      LFUCache.updateFrequencyBin
        { c with values := setVal c.values key ⟨value, vc.count⟩ } key := by
  simp [LFUCache.set, hfind]

theorem set_of_absent_room {c : LFUCache K V} {key : K} (value : V)
    (hfind : findVal c.values key = none) (hroom : ¬ c.len ≥ c.capacity) :
    c.set key value = Except.ok
      { values := setVal c.values key { value := value, count := 1 },
        frequency_bin := setBin c.frequency_bin 1
          (lhsInsert (getBin c.frequency_bin 1) key),
        capacity := c.capacity,
        min_frequency := 1 } := by
  simp [LFUCache.set, hfind, hroom, Except.map]

theorem set_of_absent_full {c : LFUCache K V} {key : K} (value : V)
    (hfind : findVal c.values key = none) (hfull : c.len ≥ c.capacity) :
    c.set key value = c.evict.map fun c2 =>
      { values := setVal c2.values key { value := value, count := 1 },
        frequency_bin := setBin c2.frequency_bin 1
          (lhsInsert (getBin c2.frequency_bin 1) key),
        capacity := c2.capacity,
        min_frequency := 1 } := by
  simp [LFUCache.set, hfind, hfull]

end ComputationRules

/-! ### The structural invariant and the reachable states -/

section Invariant

variable {K : Type u} {V : Type v} [DecidableEq K]

/-- The tracked `min_frequency` is honest: its bucket is non-empty and no
non-empty bucket sits at a lower frequency. -/
def MinTrue (c : LFUCache K V) : Prop :=
  getBin c.frequency_bin c.min_frequency ≠ [] ∧
  ∀ f, getBin c.frequency_bin f ≠ [] → c.min_frequency ≤ f

/-- Structural invariant of a cache built by `withCapacity cap` and mutated
through the public operations. -/
structure CacheInv (cap : Nat) (c : LFUCache K V) : Prop where
  cap_eq : c.capacity = cap
  cap_pos : 0 < cap
  vals_nodup : (mapKeys c.values).Nodup
  bins_nodup : ∀ f, (getBin c.frequency_bin f).Nodup
  mem_iff : ∀ k f, k ∈ getBin c.frequency_bin f ↔
    ∃ vc, findVal c.values k = some vc ∧ vc.count = f
  count_pos : ∀ k vc, findVal c.values k = some vc → 1 ≤ vc.count
  len_le : c.values.length ≤ cap
  min_ok : c.values.length = cap → MinTrue c

/-- One completed public mutating operation of the cache. -/
inductive Step : LFUCache K V → LFUCache K V → Prop
  | set (c : LFUCache K V) (k : K) (v : V) (c' : LFUCache K V) :
      c.set k v = Except.ok c' → Step c c'
  | get (c : LFUCache K V) (k : K) (r : Option V) (c' : LFUCache K V) :
      c.get k = Except.ok (r, c') → Step c c'
  | getMut (c : LFUCache K V) (k : K) (r : Option V) (c' : LFUCache K V) :
      c.getMut k = Except.ok (r, c') → Step c c'
  | remove (c : LFUCache K V) (k : K) (r : Option V) (c' : LFUCache K V) :
      c.remove k = (r, c') → Step c c'

/-- The states reachable from `withCapacity cap` by completed public
operations (`contains`, `len`, `isEmpty`, `peekLfuKey`, `iter` do not change
the state). -/
inductive Reachable (cap : Nat) : LFUCache K V → Prop
  | init (c₀ : LFUCache K V) : withCapacity K V cap = Except.ok c₀ →
      Reachable cap c₀
  | step (c c' : LFUCache K V) : Reachable cap c → Step c c' →
      Reachable cap c'

end Invariant

/-! ### Preservation of the invariant -/

section Preservation

variable {K : Type u} {V : Type v} [DecidableEq K]

theorem cacheInv_updateFrequencyBin {cap : Nat} {c c' : LFUCache K V} {key : K}
    (inv : CacheInv cap c) (h : c.updateFrequencyBin key = Except.ok c') :
    CacheInv cap c' := by
  cases hfind : findVal c.values key with
  | none =>
      rw [updateFrequencyBin_of_absent hfind] at h
      cases h
      exact inv
  | some vc =>
      cases hbin : findVal c.frequency_bin vc.count with
      | none =>
          rw [updateFrequencyBin_of_no_bin hfind hbin] at h
          cases h
      | some bin =>
          rw [updateFrequencyBin_of_present hfind hbin] at h
          cases h
          have hGB : getBin c.frequency_bin vc.count = bin :=
            getBin_eq_of_findVal hbin
          have hkeybin : key ∈ bin := by
            rw [← hGB]
            exact (inv.mem_iff key vc.count).mpr ⟨vc, hfind, rfl⟩
          have hGetBinMid : getBin (setBin c.frequency_bin vc.count
              (lhsRemove bin key)) (vc.count + 1) =
              getBin c.frequency_bin (vc.count + 1) :=
            getBin_setBin_ne _ _ (by omega)
          have hbinEq : ∀ f, getBin (setBin (setBin c.frequency_bin vc.count
              (lhsRemove bin key)) (vc.count + 1)
              (lhsInsert (getBin (setBin c.frequency_bin vc.count
                (lhsRemove bin key)) (vc.count + 1)) key)) f =
              if f = vc.count + 1
                then lhsInsert (getBin c.frequency_bin (vc.count + 1)) key
              else if f = vc.count then lhsRemove bin key
              else getBin c.frequency_bin f := by
            intro f
            by_cases h1 : f = vc.count + 1
            · simp only [if_pos h1]
              subst h1
              rw [getBin_setBin_self, hGetBinMid]
            · simp only [if_neg h1]
              by_cases h2 : f = vc.count
              · simp only [if_pos h2]
                subst h2
                rw [getBin_setBin_ne _ _ h1, getBin_setBin_self]
              · simp only [if_neg h2]
                rw [getBin_setBin_ne _ _ h1, getBin_setBin_ne _ _ h2]
          have hv_self : findVal (setVal c.values key
              ⟨vc.value, vc.count + 1⟩) key = some ⟨vc.value, vc.count + 1⟩ :=
            findVal_setVal_self _ _ _
          have hv_ne : ∀ k, k ≠ key → findVal (setVal c.values key
              ⟨vc.value, vc.count + 1⟩) k = findVal c.values k :=
            fun k hk => findVal_setVal_ne _ _ hk
          refine CacheInv.mk ?_ ?_ ?_ ?_ ?_ ?_ ?_ ?_ <;> dsimp only
          · exact inv.cap_eq
          · exact inv.cap_pos
          · exact nodup_mapKeys_setVal _ inv.vals_nodup
          · intro f
            rw [hbinEq f]
            split_ifs with h1 h2
            · exact nodup_lhsInsert _ (inv.bins_nodup (vc.count + 1))
            · exact nodup_lhsRemove _ (hGB ▸ inv.bins_nodup vc.count)
            · exact inv.bins_nodup f
          · intro k f
            rw [hbinEq f]
            by_cases hk : k = key
            · subst hk
              rw [hv_self]
              split_ifs with h1 h2
              · simp [self_mem_lhsInsert, h1]
              · simp only [mem_lhsRemove]
                simp [h2, (by omega : ¬ (vc.count + 1 = vc.count))]
              · constructor
                · intro hmem
                  obtain ⟨vc', hvc', hcnt⟩ := (inv.mem_iff k f).mp hmem
                  rw [hfind] at hvc'
                  cases hvc'
                  exact absurd hcnt.symm h2
                · rintro ⟨vc', hvc', hcnt⟩
                  cases hvc'
                  simp at hcnt
                  exact absurd hcnt.symm h1
            · rw [hv_ne k hk]
              split_ifs with h1 h2
              · rw [mem_lhsInsert]
                subst h1
                simp [hk, inv.mem_iff k (vc.count + 1)]
              · subst h2
                rw [mem_lhsRemove, ← hGB]
                simp [hk, inv.mem_iff k vc.count]
              · exact inv.mem_iff k f
          · intro k vc' hfk
            by_cases hk : k = key
            · subst hk
              rw [hv_self] at hfk
              cases hfk
              dsimp only
              omega
            · rw [hv_ne k hk] at hfk
              exact inv.count_pos k vc' hfk
          · rw [length_setVal_of_mem _ (mem_mapKeys_of_findVal hfind)]
            exact inv.len_le
          · intro hlen
            have hlen0 : c.values.length = cap := by
              rw [length_setVal_of_mem _ (mem_mapKeys_of_findVal hfind)] at hlen
              exact hlen
            obtain ⟨mt1, mt2⟩ := inv.min_ok hlen0
            have hbinne : getBin c.frequency_bin vc.count ≠ [] := by
              rw [hGB]
              intro hnil
              rw [hnil] at hkeybin
              cases hkeybin
            have hmc : c.min_frequency ≤ vc.count := mt2 vc.count hbinne
            constructor
            · dsimp only
              by_cases hcond : vc.count = c.min_frequency ∧ lhsRemove bin key = []
              · rw [if_pos hcond, hbinEq]
                obtain ⟨hcm, _⟩ := hcond
                rw [if_pos (by omega : c.min_frequency + 1 = vc.count + 1)]
                exact lhsInsert_ne_nil _ _
              · rw [if_neg hcond, hbinEq]
                split_ifs with h1 h2
                · exact lhsInsert_ne_nil _ _
                · intro hnil
                  exact hcond ⟨h2.symm, hnil⟩
                · exact mt1
            · intro f hf
              dsimp only at hf ⊢
              rw [hbinEq f] at hf
              by_cases hcond : vc.count = c.min_frequency ∧ lhsRemove bin key = []
              · rw [if_pos hcond]
                obtain ⟨hcm, hbe⟩ := hcond
                split_ifs at hf with h1 h2
                · omega
                · exact absurd hbe hf
                · have := mt2 f hf
                  omega
              · rw [if_neg hcond]
                split_ifs at hf with h1 h2
                · omega
                · have : f = vc.count := h2
                  omega
                · exact mt2 f hf

end Preservation

section Preservation2

variable {K : Type u} {V : Type v} [DecidableEq K]

theorem cacheInv_remove {cap : Nat} {c c' : LFUCache K V} {key : K}
    {r : Option V} (inv : CacheInv cap c) (h : c.remove key = (r, c')) :
    CacheInv cap c' := by
  cases hfind : findVal c.values key with
  | none =>
      rw [remove_of_absent hfind] at h
      cases h
      exact inv
  | some vc =>
      rw [remove_of_present hfind] at h
      cases h
      have hbinEq : ∀ f, getBin (setBin c.frequency_bin vc.count
          (lhsRemove (getBin c.frequency_bin vc.count) key)) f =
          if f = vc.count
            then lhsRemove (getBin c.frequency_bin vc.count) key
          else getBin c.frequency_bin f := by
        intro f
        by_cases h1 : f = vc.count
        · simp only [if_pos h1]
          subst h1
          rw [getBin_setBin_self]
        · simp only [if_neg h1]
          rw [getBin_setBin_ne _ _ h1]
      refine CacheInv.mk ?_ ?_ ?_ ?_ ?_ ?_ ?_ ?_ <;> dsimp only
      · exact inv.cap_eq
      · exact inv.cap_pos
      · exact nodup_mapKeys_eraseVal _ inv.vals_nodup
      · intro f
        rw [hbinEq f]
        split_ifs with h1
        · exact nodup_lhsRemove _ (inv.bins_nodup vc.count)
        · exact inv.bins_nodup f
      · intro k f
        rw [hbinEq f]
        by_cases hk : k = key
        · subst hk
          rw [findVal_eraseVal_self inv.vals_nodup]
          split_ifs with h1
          · simp [mem_lhsRemove]
          · constructor
            · intro hmem
              obtain ⟨vc', hvc', hcnt⟩ := (inv.mem_iff k f).mp hmem
              rw [hfind] at hvc'
              cases hvc'
              exact absurd hcnt.symm h1
            · rintro ⟨vc', hvc', hcnt⟩
              cases hvc'
        · rw [findVal_eraseVal_ne _ hk]
          split_ifs with h1
          · subst h1
            rw [mem_lhsRemove]
            simp [hk, inv.mem_iff k vc.count]
          · exact inv.mem_iff k f
      · intro k vc' hfk
        by_cases hk : k = key
        · subst hk
          rw [findVal_eraseVal_self inv.vals_nodup] at hfk
          cases hfk
        · rw [findVal_eraseVal_ne _ hk] at hfk
          exact inv.count_pos k vc' hfk
      · have := length_eraseVal_of_mem (mem_mapKeys_of_findVal hfind)
        have := inv.len_le
        omega
      · intro hlen
        have := length_eraseVal_of_mem (mem_mapKeys_of_findVal hfind)
        have := inv.len_le
        omega

/-- The common final step of `set` on an absent key: insert with count 1 into
bucket 1 and reset `min_frequency` to 1, starting from a state (the original
cache, or the cache after eviction) that satisfies the invariant minus the
minimum-frequency clause and has strictly fewer than `cap` entries. -/
theorem cacheInv_set_insert {cap : Nat} (c2 : LFUCache K V) (key : K)
    (value : V)
    (hcap : c2.capacity = cap) (hcappos : 0 < cap)
    (hnodup : (mapKeys c2.values).Nodup)
    (hbnodup : ∀ f, (getBin c2.frequency_bin f).Nodup)
    (hmem : ∀ k f, k ∈ getBin c2.frequency_bin f ↔
      ∃ vc, findVal c2.values k = some vc ∧ vc.count = f)
    (hcnt : ∀ k vc, findVal c2.values k = some vc → 1 ≤ vc.count)
    (hlen : c2.values.length + 1 ≤ cap)
    (hkey : findVal c2.values key = none) :
    CacheInv cap
      { values := setVal c2.values key ⟨value, 1⟩,
        frequency_bin := setBin c2.frequency_bin 1
          (lhsInsert (getBin c2.frequency_bin 1) key),
        capacity := c2.capacity,
        min_frequency := 1 } := by
  have hbinEq : ∀ f, getBin (setBin c2.frequency_bin 1
      (lhsInsert (getBin c2.frequency_bin 1) key)) f =
      if f = 1 then lhsInsert (getBin c2.frequency_bin 1) key
      else getBin c2.frequency_bin f := by
    intro f
    by_cases h1 : f = 1
    · simp only [if_pos h1]
      subst h1
      rw [getBin_setBin_self]
    · simp only [if_neg h1]
      rw [getBin_setBin_ne _ _ h1]
  refine CacheInv.mk ?_ ?_ ?_ ?_ ?_ ?_ ?_ ?_ <;> dsimp only
  · exact hcap
  · exact hcappos
  · exact nodup_mapKeys_setVal _ hnodup
  · intro f
    rw [hbinEq f]
    split_ifs with h1
    · exact nodup_lhsInsert _ (hbnodup 1)
    · exact hbnodup f
  · intro k f
    rw [hbinEq f]
    by_cases hk : k = key
    · subst hk
      rw [findVal_setVal_self]
      split_ifs with h1
      · simp [self_mem_lhsInsert, h1]
      · constructor
        · intro hmem2
          obtain ⟨vc', hvc', _⟩ := (hmem k f).mp hmem2
          rw [hkey] at hvc'
          cases hvc'
        · rintro ⟨vc', hvc', hcnt2⟩
          cases hvc'
          simp at hcnt2
          exact absurd hcnt2.symm h1
    · rw [findVal_setVal_ne _ _ hk]
      split_ifs with h1
      · subst h1
        rw [mem_lhsInsert]
        simp [hk, hmem k 1]
      · exact hmem k f
  · intro k vc' hfk
    by_cases hk : k = key
    · subst hk
      rw [findVal_setVal_self] at hfk
      cases hfk
      exact Nat.le_refl 1
    · rw [findVal_setVal_ne _ _ hk] at hfk
      exact hcnt k vc' hfk
  · rw [length_setVal_of_not_mem _ ((findVal_eq_none_iff _ _).mp hkey)]
    exact hlen
  · intro _
    constructor
    · dsimp only
      rw [hbinEq 1, if_pos rfl]
      exact lhsInsert_ne_nil _ _
    · intro f hf
      dsimp only at hf ⊢
      rw [hbinEq f] at hf
      split_ifs at hf with h1
      · omega
      · obtain ⟨x, hx⟩ := List.exists_mem_of_ne_nil _ hf
        obtain ⟨vc', hvc', hcnt2⟩ := (hmem x f).mp hx
        have := hcnt x vc' hvc'
        omega

end Preservation2

section Preservation3

variable {K : Type u} {V : Type v} [DecidableEq K]

theorem cacheInv_set {cap : Nat} {c c' : LFUCache K V} {key : K} {value : V}
    (inv : CacheInv cap c) (h : c.set key value = Except.ok c') :
    CacheInv cap c' := by
  cases hfind : findVal c.values key with
  | some vc =>
      rw [set_of_present value hfind] at h
      refine cacheInv_updateFrequencyBin ?_ h
      refine CacheInv.mk ?_ ?_ ?_ ?_ ?_ ?_ ?_ ?_ <;> dsimp only
      · exact inv.cap_eq
      · exact inv.cap_pos
      · exact nodup_mapKeys_setVal _ inv.vals_nodup
      · exact inv.bins_nodup
      · intro k f
        by_cases hk : k = key
        · subst hk
          rw [findVal_setVal_self]
          constructor
          · intro hmem
            obtain ⟨vc', hvc', hcnt⟩ := (inv.mem_iff k f).mp hmem
            rw [hfind] at hvc'
            cases hvc'
            exact ⟨⟨value, vc.count⟩, rfl, hcnt⟩
          · rintro ⟨vc', hvc', hcnt⟩
            cases hvc'
            exact (inv.mem_iff k f).mpr ⟨vc, hfind, by simpa using hcnt⟩
        · rw [findVal_setVal_ne _ _ hk]
          exact inv.mem_iff k f
      · intro k vc' hfk
        by_cases hk : k = key
        · subst hk
          rw [findVal_setVal_self] at hfk
          cases hfk
          exact inv.count_pos k vc hfind
        · rw [findVal_setVal_ne _ _ hk] at hfk
          exact inv.count_pos k vc' hfk
      · rw [length_setVal_of_mem _ (mem_mapKeys_of_findVal hfind)]
        exact inv.len_le
      · intro hlen
        rw [length_setVal_of_mem _ (mem_mapKeys_of_findVal hfind)] at hlen
        exact inv.min_ok hlen
  | none =>
      by_cases hfull : c.len ≥ c.capacity
      · rw [set_of_absent_full value hfind hfull] at h
        cases hev : c.evict with
        | error e =>
            rw [hev] at h
            cases h
        | ok c2 =>
            rw [hev] at h
            simp only [Except.map] at h
            cases h
            cases hbm : findVal c.frequency_bin c.min_frequency with
            | none =>
                rw [evict_of_no_bin hbm] at hev
                cases hev
            | some bin =>
                cases bin with
                | nil =>
                    rw [evict_of_empty_bin hbm] at hev
                    cases hev
                | cons j rest =>
                    rw [evict_of_cons hbm] at hev
                    cases hev
                    have hGB : getBin c.frequency_bin c.min_frequency = j :: rest :=
                      getBin_eq_of_findVal hbm
                    have hjmem : j ∈ getBin c.frequency_bin c.min_frequency := by
                      rw [hGB]
                      exact List.mem_cons_self j rest
                    obtain ⟨vcj, hvcj, hcntj⟩ :=
                      (inv.mem_iff j c.min_frequency).mp hjmem
                    have hjk : j ≠ key := by
                      intro e
                      rw [e, hfind] at hvcj
                      cases hvcj
                    have hjrest : j ∉ rest := by
                      have hnd := inv.bins_nodup c.min_frequency
                      rw [hGB] at hnd
                      exact (List.nodup_cons.mp hnd).1
                    have hlenfull : c.values.length = cap := by
                      have h1 := inv.len_le
                      have h2 : c.capacity ≤ c.values.length := hfull
                      have h3 := inv.cap_eq
                      omega
                    have hbinEq2 : ∀ f, getBin (setBin c.frequency_bin
                        c.min_frequency rest) f =
                        if f = c.min_frequency then rest
                        else getBin c.frequency_bin f := by
                      intro f
                      by_cases h1 : f = c.min_frequency
                      · simp only [if_pos h1]
                        subst h1
                        rw [getBin_setBin_self]
                      · simp only [if_neg h1]
                        rw [getBin_setBin_ne _ _ h1]
                    refine cacheInv_set_insert
                      { c with
                        frequency_bin := (setBin c.frequency_bin c.min_frequency rest),
                        values := (eraseVal c.values j) }
                      key value inv.cap_eq inv.cap_pos ?_ ?_ ?_ ?_ ?_ ?_
                    · exact nodup_mapKeys_eraseVal _ inv.vals_nodup
                    · intro f
                      dsimp only
                      rw [hbinEq2 f]
                      split_ifs with h1
                      · have hnd := inv.bins_nodup c.min_frequency
                        rw [hGB] at hnd
                        exact (List.nodup_cons.mp hnd).2
                      · exact inv.bins_nodup f
                    · intro k f
                      dsimp only
                      rw [hbinEq2 f]
                      by_cases hk : k = j
                      · subst hk
                        rw [findVal_eraseVal_self inv.vals_nodup]
                        split_ifs with h1
                        · simp [hjrest]
                        · constructor
                          · intro hmem
                            obtain ⟨vc', hvc', hcnt⟩ :=
                              (inv.mem_iff k f).mp hmem
                            rw [hvcj] at hvc'
                            cases hvc'
                            exact absurd (hcnt.symm.trans hcntj) h1
                          · rintro ⟨vc', hvc', _⟩
                            cases hvc'
                      · rw [findVal_eraseVal_ne _ hk]
                        split_ifs with h1
                        · subst h1
                          constructor
                          · intro hmem
                            exact (inv.mem_iff k c.min_frequency).mp
                              (by rw [hGB]; exact List.mem_cons_of_mem j hmem)
                          · intro hex
                            have := (inv.mem_iff k c.min_frequency).mpr hex
                            rw [hGB] at this
                            rcases List.mem_cons.mp this with h2 | h2
                            · exact absurd h2 hk
                            · exact h2
                        · exact inv.mem_iff k f
                    · intro k vc' hfk
                      dsimp only at hfk
                      by_cases hk : k = j
                      · subst hk
                        rw [findVal_eraseVal_self inv.vals_nodup] at hfk
                        cases hfk
                      · rw [findVal_eraseVal_ne _ hk] at hfk
                        exact inv.count_pos k vc' hfk
                    · dsimp only
                      have := length_eraseVal_of_mem
                        (mem_mapKeys_of_findVal hvcj)
                      omega
                    · dsimp only
                      rw [findVal_eraseVal_ne _ (Ne.symm hjk)]
                      exact hfind
      · rw [set_of_absent_room value hfind hfull] at h
        cases h
        have hroom : c.values.length + 1 ≤ cap := by
          have h1 : ¬ c.values.length ≥ c.capacity := hfull
          have h2 := inv.cap_eq
          omega
        exact cacheInv_set_insert c key value inv.cap_eq inv.cap_pos
          inv.vals_nodup inv.bins_nodup inv.mem_iff inv.count_pos hroom hfind

theorem cacheInv_get {cap : Nat} {c c' : LFUCache K V} {key : K}
    {r : Option V} (inv : CacheInv cap c) (h : c.get key = Except.ok (r, c')) :
    CacheInv cap c' := by
  rw [get_eq_updateFrequencyBin] at h
  cases hu : c.updateFrequencyBin key with
  | error e =>
      rw [hu] at h
      cases h
  | ok cu =>
      rw [hu] at h
      simp only [Except.map] at h
      cases h
      exact cacheInv_updateFrequencyBin inv hu

theorem cacheInv_step {cap : Nat} {c c' : LFUCache K V}
    (inv : CacheInv cap c) (hs : Step c c') : CacheInv cap c' := by
  cases hs with
  | set a k v h => exact cacheInv_set inv h
  | get a k r h => exact cacheInv_get inv h
  | getMut a k r h =>
      rw [getMut_eq_get] at h
      exact cacheInv_get inv h
  | remove a k r h => exact cacheInv_remove inv h

theorem cacheInv_reachable {cap : Nat} {c : LFUCache K V}
    (h : Reachable cap c) : CacheInv cap c := by
  induction h with
  | init c₀ h0 =>
      unfold withCapacity at h0
      split at h0
      · cases h0
      · cases h0
        rename_i hcap0
        refine CacheInv.mk rfl (Nat.pos_of_ne_zero hcap0) ?_ ?_ ?_ ?_ ?_ ?_
          <;> dsimp only
        · simp [mapKeys_nil]
        · intro f
          simp [getBin, findVal]
        · intro k f
          simp [getBin, findVal]
        · intro k vc hk
          simp [findVal] at hk
        · simp
        · intro hlen
          exfalso
          simp at hlen
          omega
  | step c c' hr hs ih => exact cacheInv_step ih hs

end Preservation3

/-! ### Derived facts about the operations on invariant-satisfying states -/

section Derived

variable {K : Type u} {V : Type v} [DecidableEq K]

theorem set_ok_of_inv {cap : Nat} {c : LFUCache K V} (inv : CacheInv cap c)
    (key : K) (value : V) : ∃ c', c.set key value = Except.ok c' := by
  cases hfind : findVal c.values key with
  | some vc =>
      rw [set_of_present value hfind]
      have hkeybin : key ∈ getBin c.frequency_bin vc.count :=
        (inv.mem_iff key vc.count).mpr ⟨vc, hfind, rfl⟩
      have hbin : findVal c.frequency_bin vc.count =
          some (getBin c.frequency_bin vc.count) :=
        findVal_eq_some_of_getBin_ne_nil (by
          intro hnil
          rw [hnil] at hkeybin
          cases hkeybin)
      have hfind1 : findVal (setVal c.values key ⟨value, vc.count⟩) key =
          some ⟨value, vc.count⟩ := findVal_setVal_self _ _ _
      exact ⟨_, updateFrequencyBin_of_present hfind1 hbin⟩
  | none =>
      by_cases hfull : c.len ≥ c.capacity
      · have hlenfull : c.values.length = cap := by
          have h1 := inv.len_le
          have h2 : c.capacity ≤ c.values.length := hfull
          have h3 := inv.cap_eq
          omega
        obtain ⟨mt1, mt2⟩ := inv.min_ok hlenfull
        have hbm := findVal_eq_some_of_getBin_ne_nil mt1
        cases hgb : getBin c.frequency_bin c.min_frequency with
        | nil => exact absurd hgb mt1
        | cons j rest =>
            rw [hgb] at hbm
            rw [set_of_absent_full value hfind hfull, evict_of_cons hbm]
            exact ⟨_, rfl⟩
      · exact ⟨_, set_of_absent_room value hfind hfull⟩

theorem get_ok_result {cap : Nat} {c c' : LFUCache K V} {key : K}
    {vc : ValueCounter V} {r : Option V} (inv : CacheInv cap c)
    (hfind : findVal c.values key = some vc)
    (h : c.get key = Except.ok (r, c')) :
    r = some vc.value ∧
      findVal c'.values key = some ⟨vc.value, vc.count + 1⟩ := by
  have hkeybin : key ∈ getBin c.frequency_bin vc.count :=
    (inv.mem_iff key vc.count).mpr ⟨vc, hfind, rfl⟩
  have hbin : findVal c.frequency_bin vc.count =
      some (getBin c.frequency_bin vc.count) :=
    findVal_eq_some_of_getBin_ne_nil (by
      intro hnil
      rw [hnil] at hkeybin
      cases hkeybin)
  rw [get_eq_updateFrequencyBin,
    updateFrequencyBin_of_present hfind hbin] at h
  simp only [Except.map] at h
  cases h
  constructor
  · rw [findVal_setVal_self]
    rfl
  · exact findVal_setVal_self _ _ _

theorem set_ok_result {cap : Nat} {c c' : LFUCache K V} {key : K}
    {vc : ValueCounter V} {value : V} (inv : CacheInv cap c)
    (hfind : findVal c.values key = some vc)
    (h : c.set key value = Except.ok c') :
    findVal c'.values key = some ⟨value, vc.count + 1⟩ := by
  rw [set_of_present value hfind] at h
  have hfind1 : findVal (setVal c.values key ⟨value, vc.count⟩) key =
      some ⟨value, vc.count⟩ := findVal_setVal_self _ _ _
  cases hbin : findVal c.frequency_bin vc.count with
  | none =>
      have heq := updateFrequencyBin_of_no_bin
        (c := { c with values := setVal c.values key ⟨value, vc.count⟩ })
        hfind1 hbin
      rw [heq] at h
      cases h
  | some bin =>
      have heq := updateFrequencyBin_of_present
        (c := { c with values := setVal c.values key ⟨value, vc.count⟩ })
        hfind1 hbin
      rw [heq] at h
      cases h
      exact findVal_setVal_self _ _ _

theorem findVal_updateFrequencyBin_ne {c c' : LFUCache K V} {kk k : K}
    (h : c.updateFrequencyBin kk = Except.ok c') (hne : k ≠ kk) :
    findVal c'.values k = findVal c.values k := by
  cases hfind : findVal c.values kk with
  | none =>
      rw [updateFrequencyBin_of_absent hfind] at h
      cases h
      rfl
  | some vc =>
      cases hbin : findVal c.frequency_bin vc.count with
      | none =>
          rw [updateFrequencyBin_of_no_bin hfind hbin] at h
          cases h
      | some bin =>
          rw [updateFrequencyBin_of_present hfind hbin] at h
          cases h
          exact findVal_setVal_ne _ _ hne

theorem findVal_set_ne {cap : Nat} {c c' : LFUCache K V} {kk k : K} {vv : V}
    (inv : CacheInv cap c) (hs : c.set kk vv = Except.ok c') (hne : k ≠ kk) :
    findVal c'.values k = findVal c.values k ∨ findVal c'.values k = none := by
  cases hfindkk : findVal c.values kk with
  | some vck =>
      rw [set_of_present vv hfindkk] at hs
      left
      rw [findVal_updateFrequencyBin_ne hs hne]
      exact findVal_setVal_ne _ _ hne
  | none =>
      by_cases hfull : c.len ≥ c.capacity
      · rw [set_of_absent_full vv hfindkk hfull] at hs
        cases hev : c.evict with
        | error e =>
            rw [hev] at hs
            cases hs
        | ok c2 =>
            rw [hev] at hs
            simp only [Except.map] at hs
            cases hs
            cases hbm : findVal c.frequency_bin c.min_frequency with
            | none =>
                rw [evict_of_no_bin hbm] at hev
                cases hev
            | some bin =>
                cases bin with
                | nil =>
                    rw [evict_of_empty_bin hbm] at hev
                    cases hev
                | cons j rest =>
                    rw [evict_of_cons hbm] at hev
                    cases hev
                    by_cases hkj : k = j
                    · subst hkj
                      right
                      dsimp only
                      rw [findVal_setVal_ne _ _ hne]
                      exact findVal_eraseVal_self inv.vals_nodup
                    · left
                      dsimp only
                      rw [findVal_setVal_ne _ _ hne]
                      exact findVal_eraseVal_ne _ hkj
      · rw [set_of_absent_room vv hfindkk hfull] at hs
        cases hs
        left
        exact findVal_setVal_ne _ _ hne

theorem findVal_remove_ne {c c' : LFUCache K V} {kk k : K} {r : Option V}
    (hs : c.remove kk = (r, c')) (hne : k ≠ kk) :
    findVal c'.values k = findVal c.values k := by
  cases hfindkk : findVal c.values kk with
  | none =>
      rw [remove_of_absent hfindkk] at hs
      cases hs
      rfl
  | some vck =>
      rw [remove_of_present hfindkk] at hs
      cases hs
      exact findVal_eraseVal_ne _ hne

theorem findVal_get_ne {c c' : LFUCache K V} {kk k : K} {r : Option V}
    (hs : c.get kk = Except.ok (r, c')) (hne : k ≠ kk) :
    findVal c'.values k = findVal c.values k := by
  rw [get_eq_updateFrequencyBin] at hs
  cases hu : c.updateFrequencyBin kk with
  | error e =>
      rw [hu] at hs
      cases hs
  | ok cu =>
      rw [hu] at hs
      simp only [Except.map] at hs
      cases hs
      exact findVal_updateFrequencyBin_ne hu hne

theorem step_count_mono {cap : Nat} {c c' : LFUCache K V} {k : K}
    {vc vc' : ValueCounter V} (inv : CacheInv cap c) (hstep : Step c c')
    (hfind : findVal c.values k = some vc)
    (hfind' : findVal c'.values k = some vc') : vc.count ≤ vc'.count := by
  cases hstep with
  | set kk vv a hs =>
      by_cases hkk : k = kk
      · subst hkk
        have hf2 := set_ok_result inv hfind hs
        rw [hfind'] at hf2
        cases hf2
        dsimp only
        omega
      · rcases findVal_set_ne inv hs hkk with he | he
        · rw [hfind', hfind] at he
          cases he
          exact Nat.le_refl _
        · rw [hfind'] at he
          cases he
  | get kk r a hs =>
      by_cases hkk : k = kk
      · subst hkk
        have hf2 := (get_ok_result inv hfind hs).2
        rw [hfind'] at hf2
        cases hf2
        dsimp only
        omega
      · have he := findVal_get_ne hs hkk
        rw [hfind', hfind] at he
        cases he
        exact Nat.le_refl _
  | getMut kk r a hs =>
      rw [getMut_eq_get] at hs
      by_cases hkk : k = kk
      · subst hkk
        have hf2 := (get_ok_result inv hfind hs).2
        rw [hfind'] at hf2
        cases hf2
        dsimp only
        omega
      · have he := findVal_get_ne hs hkk
        rw [hfind', hfind] at he
        cases he
        exact Nat.le_refl _
  | remove kk r a hs =>
      by_cases hkk : k = kk
      · subst hkk
        rw [remove_of_present hfind] at hs
        cases hs
        rw [findVal_eraseVal_self inv.vals_nodup] at hfind'
        cases hfind'
      · have he := findVal_remove_ne hs hkk
        rw [hfind', hfind] at he
        cases he
        exact Nat.le_refl _

end Derived

section Derived2

variable {K : Type u} {V : Type v} [DecidableEq K]

theorem get_gives_value {c : LFUCache K V} {k : K} {w : ValueCounter V}
    {bin : List K} (hf : findVal c.values k = some w)
    (hb : findVal c.frequency_bin w.count = some bin) :
    ∃ c'', c.get k = Except.ok (some w.value, c'') := by
  refine ⟨{ values := setVal c.values k ⟨w.value, w.count + 1⟩,
            frequency_bin := setBin (setBin c.frequency_bin w.count
                (lhsRemove bin k)) (w.count + 1)
              (lhsInsert (getBin (setBin c.frequency_bin w.count
                (lhsRemove bin k)) (w.count + 1)) k),
            capacity := c.capacity,
            min_frequency := if w.count = c.min_frequency ∧
                lhsRemove bin k = []
              then c.min_frequency + 1 else c.min_frequency }, ?_⟩
  rw [get_eq_updateFrequencyBin, updateFrequencyBin_of_present hf hb]
  simp only [Except.map, findVal_setVal_self, Option.map_some']

end Derived2

/-! ### Reachability of the concrete scenario states -/

theorem reach_lfu0 : Reachable 2 lfu0 := Reachable.init lfu0 rfl

theorem reach_lfu1 : Reachable 2 lfu1 :=
  Reachable.step lfu0 lfu1 reach_lfu0 (Step.set lfu0 1 1 lfu1 rfl)

theorem reach_lfu12 : Reachable 2 lfu12 :=
  Reachable.step lfu1 lfu12 reach_lfu1 (Step.set lfu1 2 2 lfu12 rfl)

theorem reach_lfu23 : Reachable 2 lfu23 :=
  Reachable.step lfu12 lfu23 reach_lfu12 (Step.set lfu12 3 3 lfu23 rfl)

/-! ### The claims -/

section Claims

/-- C1: eviction obeys the LFU-then-LRU tie-break.  Whenever `set` on a new
key triggers eviction, the evicted key is the front `j` of the bucket at
`min_frequency` — the key least recently moved into that bucket, since
bucket order is insertion order and every move appends at the back — and the
new key is inserted with count 1.  In particular, on a capacity-2 cache,
after `set(1,1); set(2,2); set(3,3)`, `get(1)` returns nothing (key 1 was
the tie-break victim) while keys 2 and 3 remain present. -/
theorem lfu_tie_break_eviction {K : Type u} {V : Type v} [DecidableEq K]
    (c : LFUCache K V) (key j : K) (v : V) (rest : List K)
    (hnodup : (mapKeys c.values).Nodup)
    (hnew : findVal c.values key = none)
    (hfull : c.len ≥ c.capacity)
    (hbin : findVal c.frequency_bin c.min_frequency = some (j :: rest))
    (hjk : j ≠ key) :
    (∃ c', c.set key v = Except.ok c' ∧ findVal c'.values j = none ∧
      findVal c'.values key = some ⟨v, 1⟩) ∧
    (withCapacity Nat Nat 2 = Except.ok lfu0 ∧
      lfu0.set 1 1 = Except.ok lfu1 ∧ lfu1.set 2 2 = Except.ok lfu12 ∧
      lfu12.set 3 3 = Except.ok lfu23 ∧
      lfu23.get 1 = Except.ok (none, lfu23) ∧
      lfu23.contains 2 = true ∧ lfu23.contains 3 = true) := by
  constructor
  · rw [set_of_absent_full v hnew hfull, evict_of_cons hbin]
    simp only [Except.map]
    refine ⟨_, rfl, ?_, ?_⟩
    · dsimp only
      rw [findVal_setVal_ne _ _ hjk]
      exact findVal_eraseVal_self hnodup
    · exact findVal_setVal_self _ _ _
  · exact ⟨rfl, rfl, rfl, rfl, rfl, rfl, rfl⟩

/-- Witness for C1: on the full capacity-2 cache `lfu12` (keys 1 and 2, both
at frequency 1, key 1 the older), `set(3,3)` evicts key 1 and inserts key 3
with count 1. -/
theorem lfu_tie_break_eviction_witness :
    ∃ c', lfu12.set 3 3 = Except.ok c' ∧ findVal c'.values 1 = none ∧
      findVal c'.values 3 = some ⟨3, 1⟩ :=
  (lfu_tie_break_eviction lfu12 3 1 3 [2] (by decide) rfl (by decide) rfl
    (by decide)).1

/-- C2: capacity is never exceeded — for every cache constructed by
`withCapacity cap` (so `cap > 0`) and every sequence of completed public
operations, `len ≤ cap`. -/
theorem lfu_capacity_bound {K : Type u} {V : Type v} [DecidableEq K]
    {cap : Nat} {c : LFUCache K V} (h : Reachable cap c) : c.len ≤ cap :=
  (cacheInv_reachable h).len_le

/-- Witness for C2: the state after `set(1,1); set(2,2); set(3,3)` on a
capacity-2 cache (a sequence that triggered an eviction) has at most 2
entries. -/
theorem lfu_capacity_bound_witness : lfu23.len ≤ 2 :=
  lfu_capacity_bound reach_lfu23

/-- C3: on a capacity-2 cache, after `set(2,2); set(3,3); set(3,30);
set(4,4)`, `get(2)` returns nothing (key 2 was evicted because updating
key 3 raised its frequency) and `get(3)` returns the updated value 30. -/
theorem lfu_update_raises_frequency_scenario :
    withCapacity Nat Nat 2 = Except.ok lfu0 ∧
    lfu0.set 2 2 = Except.ok lfu2 ∧
    lfu2.set 3 3 = Except.ok lfu23 ∧
    lfu23.set 3 30 = Except.ok lfu23u ∧
    lfu23u.set 4 4 = Except.ok lfu34 ∧
    lfu34.get 2 = Except.ok (none, lfu34) ∧
    lfu34.get 3 = Except.ok (some 30, lfu34g) :=
  ⟨rfl, rfl, rfl, rfl, rfl, rfl, rfl⟩

/-- C4 counterexample: the claim fails for `peek_lfu_key`.  After
`set(1,1); remove(1)` on a capacity-2 cache (a sequence of public
operations), `min_frequency` is still 1 but the bucket at frequency 1 is
empty and no non-empty bucket exists at all, so an attempted `peek_lfu_key`
addresses an empty bucket (returning nothing) rather than a non-empty one. -/
theorem lfu_min_frequency_counterexample :
    withCapacity Nat Nat 2 = Except.ok lfu0 ∧
    lfu0.set 1 1 = Except.ok lfu1 ∧
    lfu1.remove 1 = (some 1, lfuRm) ∧
    lfuRm.min_frequency = 1 ∧
    lfuRm.frequency_bin = [(1, [])] ∧
    lfuRm.peekLfuKey = Except.ok none :=
  ⟨rfl, rfl, rfl, rfl, rfl, rfl⟩

/-- C4 (amended): whenever an eviction is attempted — that is, on any
reachable cache whose length has reached its capacity, the state in which
`set` on a new key calls `evict` — the stored `min_frequency` is honest: its
bucket is non-empty and every non-empty bucket sits at a frequency ≥
`min_frequency`.  (For `peek_lfu_key` alone the claim fails: after `remove`
empties the minimum bucket, or on a fresh cache, it can address an empty or
missing bucket.) -/
theorem lfu_min_frequency_true_when_full {K : Type u} {V : Type v}
    [DecidableEq K] {cap : Nat} {c : LFUCache K V} (h : Reachable cap c)
    (hfull : c.capacity ≤ c.len) : MinTrue c := by
  have inv := cacheInv_reachable h
  apply inv.min_ok
  have h1 : c.len = c.values.length := rfl
  have h2 := inv.len_le
  have h3 := inv.cap_eq
  omega

/-- Witness for the amended C4: the full reachable cache `lfu12` has an
honest `min_frequency`. -/
theorem lfu_min_frequency_true_when_full_witness : MinTrue lfu12 :=
  lfu_min_frequency_true_when_full reach_lfu12 (by decide)

/-- C5 counterexample: the claim fails for a freshly constructed cache.
`with_capacity(1)` yields `min_frequency = 0` and an empty bucket map, and
`peek_lfu_key` then unwraps the missing bucket 0 — a panic, not a "nothing
found" result. -/
theorem lfu_missing_key_counterexample :
    withCapacity Nat Nat 1 = Except.ok ⟨[], [], 1, 0⟩ ∧
    LFUCache.peekLfuKey (⟨[], [], 1, 0⟩ : LFUCache Nat Nat) =
      Except.error () :=
  ⟨rfl, rfl⟩

/-- C5 (amended): `get`, `get_mut` and `remove` on an absent key return
"nothing found" without panicking and leave the cache unchanged, and
`peek_lfu_key` returns "nothing found" whenever the bucket at
`min_frequency` exists (even when it is empty, i.e. there is no eviction
candidate); but on a freshly constructed cache, whose bucket map is empty,
`peek_lfu_key` panics instead of returning "nothing found". -/
theorem lfu_missing_key_no_panic {K : Type u} {V : Type v} [DecidableEq K] :
    (∀ (c : LFUCache K V) (k : K), findVal c.values k = none →
      c.get k = Except.ok (none, c) ∧ c.getMut k = Except.ok (none, c) ∧
      c.remove k = (none, c)) ∧
    (∀ (c : LFUCache K V) (bin : List K),
      findVal c.frequency_bin c.min_frequency = some bin →
      c.peekLfuKey = Except.ok bin.head?) ∧
    (∀ (cap : Nat) (c₀ : LFUCache K V), withCapacity K V cap = Except.ok c₀ →
      c₀.peekLfuKey = Except.error ()) := by
  refine ⟨?_, ?_, ?_⟩
  · intro c k hk
    refine ⟨?_, ?_, remove_of_absent hk⟩
    · rw [get_eq_updateFrequencyBin, updateFrequencyBin_of_absent hk]
      simp [Except.map, hk]
    · rw [getMut_eq_get, get_eq_updateFrequencyBin,
        updateFrequencyBin_of_absent hk]
      simp [Except.map, hk]
  · intro c bin hb
    exact peekLfuKey_of_bin hb
  · intro cap c₀ h0
    unfold withCapacity at h0
    split at h0
    · cases h0
    · cases h0
      exact peekLfuKey_of_no_bin rfl

/-- Witness for the amended C5: absent-key `get`/`get_mut`/`remove` on the
fresh cache return nothing; `peek_lfu_key` on a cache with an empty minimum
bucket returns nothing; `peek_lfu_key` on a fresh capacity-3 cache panics. -/
theorem lfu_missing_key_no_panic_witness :
    (lfu0.get 5 = Except.ok (none, lfu0) ∧
      lfu0.getMut 5 = Except.ok (none, lfu0) ∧
      lfu0.remove 5 = (none, lfu0)) ∧
    lfuRm.peekLfuKey = Except.ok none ∧
    LFUCache.peekLfuKey (⟨[], [], 3, 0⟩ : LFUCache Nat Nat) =
      Except.error () :=
  ⟨lfu_missing_key_no_panic.1 lfu0 5 rfl,
   lfu_missing_key_no_panic.2.1 lfuRm [] rfl,
   lfu_missing_key_no_panic.2.2 3 ⟨[], [], 3, 0⟩ rfl⟩

/-- C6: frequency monotonicity.  On any reachable cache, for a key present
with counter `vc`: a successful `get`, `get_mut`, or `set` on that key
leaves it with count exactly `vc.count + 1`, and no completed public
operation (`set`, `get`, `get_mut`, `remove` on any key) ever leaves the
key present with a smaller count. -/
theorem lfu_frequency_monotonic {K : Type u} {V : Type v} [DecidableEq K]
    {cap : Nat} {c : LFUCache K V} (h : Reachable cap c) (k : K)
    (vc : ValueCounter V) (hfind : findVal c.values k = some vc) :
    (∀ (r : Option V) (c' : LFUCache K V), c.get k = Except.ok (r, c') →
      findVal c'.values k = some ⟨vc.value, vc.count + 1⟩) ∧
    (∀ (r : Option V) (c' : LFUCache K V), c.getMut k = Except.ok (r, c') →
      findVal c'.values k = some ⟨vc.value, vc.count + 1⟩) ∧
    (∀ (v : V) (c' : LFUCache K V), c.set k v = Except.ok c' →
      findVal c'.values k = some ⟨v, vc.count + 1⟩) ∧
    (∀ (c' : LFUCache K V) (vc' : ValueCounter V), Step c c' →
      findVal c'.values k = some vc' → vc.count ≤ vc'.count) := by
  have inv := cacheInv_reachable h
  refine ⟨?_, ?_, ?_, ?_⟩
  · intro r c' hg
    exact (get_ok_result inv hfind hg).2
  · intro r c' hg
    rw [getMut_eq_get] at hg
    exact (get_ok_result inv hfind hg).2
  · intro v c' hs
    exact set_ok_result inv hfind hs
  · intro c' vc' hstep hf'
    exact step_count_mono inv hstep hfind hf'

/-- Witness for C6: on `lfu12`, where key 1 has count 1, `get(1)` leaves
key 1 with count 2. -/
theorem lfu_frequency_monotonic_witness :
    findVal lfu12g.values 1 = some ⟨1, 2⟩ :=
  (lfu_frequency_monotonic reach_lfu12 1 ⟨1, 1⟩ rfl).1 (some 1) lfu12g rfl

/-- C7: set/get round-trip — for every cache state, whenever
`set(k, v)` completes, an immediately following `get(k)` returns `v`. -/
theorem lfu_set_get_round_trip {K : Type u} {V : Type v} [DecidableEq K]
    (c c' : LFUCache K V) (k : K) (v : V) (h : c.set k v = Except.ok c') :
    ∃ c'', c'.get k = Except.ok (some v, c'') := by
  cases hfind : findVal c.values k with
  | some vc =>
      rw [set_of_present v hfind] at h
      have hfind1 : findVal (setVal c.values k ⟨v, vc.count⟩) k =
          some ⟨v, vc.count⟩ := findVal_setVal_self _ _ _
      cases hbin : findVal c.frequency_bin vc.count with
      | none =>
          have heq := updateFrequencyBin_of_no_bin
            (c := { c with values := setVal c.values k ⟨v, vc.count⟩ })
            hfind1 hbin
          rw [heq] at h
          cases h
      | some bin =>
          have heq := updateFrequencyBin_of_present
            (c := { c with values := setVal c.values k ⟨v, vc.count⟩ })
            hfind1 hbin
          rw [heq] at h
          cases h
          exact get_gives_value (w := ⟨v, vc.count + 1⟩)
            (findVal_setVal_self _ _ _) (findVal_setBin_self _ _ _)
  | none =>
      by_cases hfull : c.len ≥ c.capacity
      · rw [set_of_absent_full v hfind hfull] at h
        cases hev : c.evict with
        | error e =>
            rw [hev] at h
            cases h
        | ok c2 =>
            rw [hev] at h
            simp only [Except.map] at h
            cases h
            exact get_gives_value (w := ⟨v, 1⟩)
              (findVal_setVal_self _ _ _) (findVal_setBin_self _ _ _)
      · rw [set_of_absent_room v hfind hfull] at h
        cases h
        exact get_gives_value (w := ⟨v, 1⟩)
          (findVal_setVal_self _ _ _) (findVal_setBin_self _ _ _)

/-- Witness for C7: after `set(1,1)` on the fresh cache, `get(1)`
returns 1. -/
theorem lfu_set_get_round_trip_witness :
    ∃ c'', lfu1.get 1 = Except.ok (some 1, c'') :=
  lfu_set_get_round_trip lfu0 lfu1 1 1 rfl

/-- C8: idempotent absence — for every cache state and absent key, `get`
and `remove` return "nothing found" and return the cache completely
unchanged (hence `len`, the present keys, all stored values and counts, and
`min_frequency` are all preserved). -/
theorem lfu_absent_key_noop {K : Type u} {V : Type v} [DecidableEq K]
    (c : LFUCache K V) (k : K) (h : findVal c.values k = none) :
    c.get k = Except.ok (none, c) ∧ c.remove k = (none, c) := by
  constructor
  · rw [get_eq_updateFrequencyBin, updateFrequencyBin_of_absent h]
    simp [Except.map, h]
  · exact remove_of_absent h

/-- Witness for C8: key 1 is absent from `lfu23` (it was evicted), and both
`get(1)` and `remove(1)` return nothing and leave the state intact. -/
theorem lfu_absent_key_noop_witness :
    lfu23.get 1 = Except.ok (none, lfu23) ∧ lfu23.remove 1 = (none, lfu23) :=
  lfu_absent_key_noop lfu23 1 rfl

/-- C9 counterexample: indexed access does not perform the frequency bump.
On the cache holding key 1 at count 1, `cache[1]` returns the value but —
taking the cache by shared reference — leaves no successor state, while
`get(1)` moves key 1 to count 2, producing a state different from the
original; so "cache[k] performs the same frequency bump as get(k)" is
false. -/
theorem lfu_index_counterexample :
    LFUCache.index lfu1 1 = Except.ok 1 ∧
    lfu1.get 1 = Except.ok (some 1, lfu1g) ∧
    findVal lfu1.values 1 = some ⟨1, 1⟩ ∧
    findVal lfu1g.values 1 = some ⟨1, 2⟩ ∧
    lfu1g ≠ lfu1 := by
  refine ⟨rfl, rfl, rfl, rfl, ?_⟩
  decide

/-- C9 (amended): indexed access `cache[k]` returns exactly the value that
`get(k)` returns when `k` is present — but performs no frequency bump, as it
reads through a shared reference and produces no successor state — and
panics when `k` is absent instead of returning an empty result. -/
theorem lfu_index_reads_without_bump {K : Type u} {V : Type v}
    [DecidableEq K] :
    (∀ (c c' : LFUCache K V) (k : K) (w : ValueCounter V) (r : Option V),
      findVal c.values k = some w → c.get k = Except.ok (r, c') →
      c.index k = Except.ok w.value ∧ r = some w.value) ∧
    (∀ (c : LFUCache K V) (k : K), findVal c.values k = none →
      c.index k = Except.error ()) := by
  constructor
  · intro c c' k w r hf hg
    constructor
    · simp [LFUCache.index, hf]
    · rw [get_eq_updateFrequencyBin] at hg
      cases hbin : findVal c.frequency_bin w.count with
      | none =>
          rw [updateFrequencyBin_of_no_bin hf hbin] at hg
          cases hg
      | some bin =>
          rw [updateFrequencyBin_of_present hf hbin] at hg
          simp only [Except.map] at hg
          cases hg
          rw [findVal_setVal_self]
          rfl
  · intro c k h
    simp [LFUCache.index, h]

/-- Witness for the amended C9: `cache[1]` on `lfu1` returns the same value
1 that `get(1)` returns, and indexing an absent key panics. -/
theorem lfu_index_reads_without_bump_witness :
    (LFUCache.index lfu1 1 = Except.ok 1 ∧
      (some 1 : Option Nat) = some 1) ∧
    LFUCache.index lfu0 9 = Except.error () :=
  ⟨lfu_index_reads_without_bump.1 lfu1 lfu1g 1 ⟨1, 1⟩ (some 1) rfl rfl,
   lfu_index_reads_without_bump.2 lfu0 9 rfl⟩

/-- C10: `set` never aborts on a reachable cache — in particular, whenever
`set` on a new key reaches the eviction step, the bucket at `min_frequency`
exists and is non-empty, so `evict`'s front-pop succeeds and `set`
completes. -/
theorem lfu_set_total {K : Type u} {V : Type v} [DecidableEq K] {cap : Nat}
    {c : LFUCache K V} (h : Reachable cap c) (key : K) (value : V) :
    ∃ c', c.set key value = Except.ok c' :=
  set_ok_of_inv (cacheInv_reachable h) key value

/-- Witness for C10: `set(9,9)` on the full reachable cache `lfu12` (which
must evict) completes. -/
theorem lfu_set_total_witness : ∃ c', lfu12.set 9 9 = Except.ok c' :=
  lfu_set_total reach_lfu12 9 9

end Claims
